import Mathlib

/-!
Verification of the person-track labeling tool (`tool.py`).

Shallow embedding conventions:
* Python floats are modelled as exact rationals (`ℚ`).  `float(s)` on the
  decimal-literal subset of Python's float syntax (optional sign, digits,
  optional single decimal point) is modelled by `parsePyFloat`; the exotic
  forms (`inf`, `nan`, exponents, underscores) are outside the model.
* `str(x)` for a float `x` is modelled by `pyFloatStr`, printing the exact
  decimal expansion (sign, integer part, `.`, fractional digits, with a
  lone `0` when the fraction is empty) — this agrees with Python on every
  value whose decimal expansion terminates.
* The filesystem seen by `os.listdir`/`os.path.isdir` is a finite tree of
  named entries (`FSEntry`); `csv.writer`/`csv.reader` are modelled as a
  faithful row transport (the csv module round-trips arbitrary fields).
* Python `list[i]` indexing (with its negative-index convention) and
  `del list[i]` are modelled by `pyGet`/`pyDelIdx`, returning `none`
  exactly where Python raises `IndexError`; GUI handlers are functions
  `AppState → Option AppState`, `none` marking an uncaught exception.
-/

namespace TrackTool

/-! ### Decimal digits -/

/-- The decimal digit character for a value below ten. -/
def digitChar : ℕ → Char
  | 0 => '0' | 1 => '1' | 2 => '2' | 3 => '3' | 4 => '4'
  | 5 => '5' | 6 => '6' | 7 => '7' | 8 => '8' | _ => '9'

/-- Numeric value of a digit character. -/
def digitVal (c : Char) : ℕ := c.toNat - 48

/-- Value of a most-significant-first list of digit characters. -/
def digitsToNat (ds : List Char) : ℕ := ds.foldl (fun a c => 10 * a + digitVal c) 0

theorem digitChar_isDigit (k : ℕ) : (digitChar k).isDigit = true := by
  unfold digitChar; split <;> decide

theorem digitVal_digitChar {k : ℕ} (h : k < 10) : digitVal (digitChar k) = k := by
  interval_cases k <;> decide

theorem digitChar_ne_minus (k : ℕ) : digitChar k ≠ '-' := by
  unfold digitChar; split <;> decide

theorem digitChar_ne_plus (k : ℕ) : digitChar k ≠ '+' := by
  unfold digitChar; split <;> decide

theorem isDigit_ne_minus {c : Char} (h : c.isDigit = true) : c ≠ '-' := by
  rintro rfl; simp [Char.isDigit] at h

theorem isDigit_ne_plus {c : Char} (h : c.isDigit = true) : c ≠ '+' := by
  rintro rfl; simp [Char.isDigit] at h

theorem isDigit_ne_dot {c : Char} (h : c.isDigit = true) : c ≠ '.' := by
  rintro rfl; simp [Char.isDigit] at h

theorem foldl_digits (ds : List Char) (a : ℕ) :
    ds.foldl (fun a c => 10 * a + digitVal c) a = a * 10 ^ ds.length + digitsToNat ds := by
  induction ds generalizing a with
  | nil => simp [digitsToNat]
  | cons c ds ih =>
    show List.foldl _ (10 * a + digitVal c) ds = _
    rw [ih]
    have : digitsToNat (c :: ds) = (digitVal c) * 10 ^ ds.length + digitsToNat ds := by
      show List.foldl _ (10 * 0 + digitVal c) ds = _
      rw [ih]; ring_nf
    rw [this]; simp only [List.length_cons]; ring

theorem digitsToNat_cons (c : Char) (ds : List Char) :
    digitsToNat (c :: ds) = digitVal c * 10 ^ ds.length + digitsToNat ds := by
  show List.foldl _ (10 * 0 + digitVal c) ds = _
  rw [foldl_digits]; ring_nf

theorem digitsToNat_append (ds : List Char) (c : Char) :
    digitsToNat (ds ++ [c]) = 10 * digitsToNat ds + digitVal c := by
  unfold digitsToNat
  rw [List.foldl_append]
  rfl

/-! ### Printing a natural number in decimal (the digits of `str`) -/

/-- Fuel-driven most-significant-first digit extraction. -/
def natDigitsAux : ℕ → ℕ → List Char
  | 0, _ => []
  | fuel + 1, n => if n = 0 then [] else natDigitsAux fuel (n / 10) ++ [digitChar (n % 10)]

/-- Decimal digits of a natural number, as printed by Python. -/
def natToDigits (n : ℕ) : List Char :=
  if n = 0 then ['0'] else natDigitsAux n n

theorem natDigitsAux_spec : ∀ fuel n, n ≤ fuel →
    digitsToNat (natDigitsAux fuel n) = n ∧
    (∀ c ∈ natDigitsAux fuel n, c.isDigit = true) := by
  intro fuel
  induction fuel with
  | zero => intro n hn; interval_cases n; simp [natDigitsAux, digitsToNat]
  | succ fuel ih =>
    intro n hn
    by_cases h0 : n = 0
    · subst h0; simp [natDigitsAux, digitsToNat]
    · have hlt : n / 10 < n := Nat.div_lt_self (Nat.pos_of_ne_zero h0) (by norm_num)
      have hle : n / 10 ≤ fuel := by omega
      obtain ⟨ihv, ihd⟩ := ih (n / 10) hle
      constructor
      · rw [natDigitsAux, if_neg h0, digitsToNat_append, ihv,
          digitVal_digitChar (Nat.mod_lt _ (by norm_num))]
        omega
      · intro c hc
        rw [natDigitsAux, if_neg h0] at hc
        rcases List.mem_append.mp hc with h | h
        · exact ihd c h
        · rcases List.mem_singleton.mp h with rfl
          exact digitChar_isDigit _

theorem digitsToNat_natToDigits (n : ℕ) : digitsToNat (natToDigits n) = n := by
  unfold natToDigits
  by_cases h0 : n = 0
  · subst h0; decide
  · rw [if_neg h0]; exact (natDigitsAux_spec n n le_rfl).1

theorem natToDigits_all_digit (n : ℕ) : ∀ c ∈ natToDigits n, c.isDigit = true := by
  unfold natToDigits
  by_cases h0 : n = 0
  · subst h0; intro c hc; rcases List.mem_singleton.mp hc with rfl; decide
  · rw [if_neg h0]; exact (natDigitsAux_spec n n le_rfl).2

theorem natToDigits_ne_nil (n : ℕ) : natToDigits n ≠ [] := by
  unfold natToDigits
  by_cases h0 : n = 0
  · subst h0; simp
  · rw [if_neg h0]
    cases n with
    | zero => exact absurd rfl h0
    | succ m =>
      rw [natDigitsAux, if_neg h0]
      simp

/-! ### Fractional digits of a terminating decimal expansion -/

/-- Long division digits of `r / d` (with `r < d`), fuel-driven; stops when
the remainder is exhausted. -/
def fracDigitsAux : ℕ → ℕ → ℕ → List Char
  | 0, _, _ => []
  | fuel + 1, r, d =>
    if r = 0 then [] else digitChar (10 * r / d) :: fracDigitsAux fuel (10 * r % d) d

theorem fracDigitsAux_spec : ∀ fuel r d, 0 < d → r < d → (10 ^ fuel * r) % d = 0 →
    digitsToNat (fracDigitsAux fuel r d) * d = r * 10 ^ (fracDigitsAux fuel r d).length ∧
    (∀ c ∈ fracDigitsAux fuel r d, c.isDigit = true) := by
  intro fuel
  induction fuel with
  | zero =>
    intro r d hd hr hmod
    simp only [pow_zero, one_mul] at hmod
    rw [Nat.mod_eq_of_lt hr] at hmod
    subst hmod
    simp [fracDigitsAux, digitsToNat]
  | succ fuel ih =>
    intro r d hd hr hmod
    by_cases h0 : r = 0
    · subst h0; simp [fracDigitsAux, digitsToNat]
    · rw [fracDigitsAux, if_neg h0]
      have hr' : 10 * r % d < d := Nat.mod_lt _ hd
      have hq : 10 * r / d < 10 := Nat.div_lt_of_lt_mul (by omega)
      have hmod' : (10 ^ fuel * (10 * r % d)) % d = 0 := by
        have h1 : 10 ^ (fuel + 1) * r = d * (10 ^ fuel * (10 * r / d)) + 10 ^ fuel * (10 * r % d) := by
          have := Nat.div_add_mod (10 * r) d
          calc 10 ^ (fuel + 1) * r = 10 ^ fuel * (10 * r) := by ring
            _ = 10 ^ fuel * (d * (10 * r / d) + 10 * r % d) := by rw [this]
            _ = d * (10 ^ fuel * (10 * r / d)) + 10 ^ fuel * (10 * r % d) := by ring
        have h2 := hmod
        rw [h1, Nat.mul_add_mod] at h2
        exact h2
      obtain ⟨ihv, ihd⟩ := ih (10 * r % d) d hd hr' hmod'
      constructor
      · rw [digitsToNat_cons, digitVal_digitChar hq]
        have hdm := Nat.div_add_mod (10 * r) d
        calc (10 * r / d * 10 ^ (fracDigitsAux fuel (10 * r % d) d).length +
              digitsToNat (fracDigitsAux fuel (10 * r % d) d)) * d
            = (10 * r / d) * d * 10 ^ (fracDigitsAux fuel (10 * r % d) d).length +
              digitsToNat (fracDigitsAux fuel (10 * r % d) d) * d := by ring
          _ = (10 * r / d) * d * 10 ^ (fracDigitsAux fuel (10 * r % d) d).length +
              (10 * r % d) * 10 ^ (fracDigitsAux fuel (10 * r % d) d).length := by rw [ihv]
          _ = (10 * r / d * d + 10 * r % d) * 10 ^ (fracDigitsAux fuel (10 * r % d) d).length := by
              ring
          _ = (10 * r) * 10 ^ (fracDigitsAux fuel (10 * r % d) d).length := by
              rw [mul_comm (10 * r / d) d, Nat.div_add_mod]
          _ = r * 10 ^ ((fracDigitsAux fuel (10 * r % d) d).length + 1) := by ring
      · intro c hc
        rcases List.mem_cons.mp hc with rfl | h
        · exact digitChar_isDigit _
        · exact ihd c h

/-! ### `float(s)`: parsing the decimal-literal subset of Python float syntax -/

/-- Helper for `parseUnsigned`: `intD` is the leading run of digits, the
second argument what follows it (either nothing, or a decimal point and the
fractional digits). -/
def parseUnsignedAux (intD : List Char) : List Char → Option ℚ
  | [] => if intD.isEmpty then none else some ((digitsToNat intD : ℚ))
  | c :: fracD =>
    if c = '.' then
      if fracD.all Char.isDigit && (!intD.isEmpty || !fracD.isEmpty) then
        some ((digitsToNat intD : ℚ) + (digitsToNat fracD : ℚ) / (10 : ℚ) ^ fracD.length)
      else none
    else none

/-- Unsigned part of a Python float literal: digits, optionally followed by a
decimal point and more digits, with at least one digit in total. -/
def parseUnsigned (cs : List Char) : Option ℚ :=
  parseUnsignedAux (cs.takeWhile Char.isDigit) (cs.dropWhile Char.isDigit)

/-- `float(s)` on a character list: optional sign, then an unsigned literal.
Models the decimal-literal subset of Python float syntax (no exponent,
`inf`/`nan`, or underscore forms). -/
def parseFloatChars (cs : List Char) : Option ℚ :=
  match cs with
  | [] => none
  | c :: rest =>
    if c = '-' then (parseUnsigned rest).map (fun q => -q)
    else if c = '+' then parseUnsigned rest
    else parseUnsigned cs

/-- `float(s)` on a string (see `parseFloatChars`). -/
def parsePyFloat (s : String) : Option ℚ := parseFloatChars s.data

/-- `str(x)` for a Python float `x`, on values with a terminating decimal
expansion: sign, integer part, a dot, and the fractional digits (a single
`0` when the expansion has none). -/
def pyFloatStr (q : ℚ) : String :=
  let n := q.num.natAbs
  let d := q.den
  let fr := fracDigitsAux d (n % d) d
  let frac := if fr.isEmpty then ['0'] else fr
  let sign := if q < 0 then ['-'] else []
  String.mk (sign ++ natToDigits (n / d) ++ '.' :: frac)

theorem takeWhile_append_of_all {p : Char → Bool} (l1 : List Char) (c : Char) (l2 : List Char)
    (h1 : ∀ x ∈ l1, p x = true) (hc : p c = false) :
    (l1 ++ c :: l2).takeWhile p = l1 ∧ (l1 ++ c :: l2).dropWhile p = c :: l2 := by
  induction l1 with
  | nil => simp [List.takeWhile, List.dropWhile, hc]
  | cons x xs ih =>
    have hx : p x = true := h1 x (List.mem_cons_self _ _)
    obtain ⟨iht, ihd⟩ := ih (fun y hy => h1 y (List.mem_cons_of_mem _ hy))
    constructor
    · simp [List.takeWhile, hx, iht]
    · simp [List.dropWhile, hx, ihd]

theorem parseUnsigned_of_shape (intD fracD : List Char)
    (hint : ∀ x ∈ intD, x.isDigit = true) (hfrac : ∀ x ∈ fracD, x.isDigit = true)
    (hne : intD ≠ []) :
    parseUnsigned (intD ++ '.' :: fracD) =
      some ((digitsToNat intD : ℚ) + (digitsToNat fracD : ℚ) / (10 : ℚ) ^ fracD.length) := by
  obtain ⟨ht, hd⟩ := takeWhile_append_of_all intD '.' fracD hint (by decide)
  unfold parseUnsigned
  rw [ht, hd]
  simp only [parseUnsignedAux, if_true]
  rw [if_pos]
  rw [Bool.and_eq_true]
  constructor
  · exact List.all_eq_true.mpr hfrac
  · rw [Bool.or_eq_true]
    left
    simpa [List.isEmpty_iff] using hne

/-- The key divisibility bound: any divisor of a power of ten divides
`10 ^` itself. -/
theorem dvd_ten_pow_self {d k : ℕ} (hd : 0 < d) (h : d ∣ 10 ^ k) : d ∣ 10 ^ d := by
  have h25 : d ∣ 2 ^ k * 5 ^ k := by
    have h10 : (10 : ℕ) = 2 * 5 := by norm_num
    rw [h10, mul_pow] at h
    exact h
  obtain ⟨d1, d2, h1, h2, hprod⟩ := exists_dvd_and_dvd_of_dvd_mul h25
  obtain ⟨a, _, rfl⟩ := (Nat.dvd_prime_pow Nat.prime_two).mp h1
  obtain ⟨b, _, rfl⟩ := (Nat.dvd_prime_pow (by norm_num : Nat.Prime 5)).mp h2
  have hd2pos : 0 < 5 ^ b := Nat.pos_pow_of_pos _ (by norm_num)
  have hd1pos : 0 < 2 ^ a := Nat.pos_pow_of_pos _ (by norm_num)
  have ha : a ≤ d := by
    have h2a : 2 ^ a ≤ d := by
      rw [hprod]
      calc 2 ^ a = 2 ^ a * 1 := by ring
        _ ≤ 2 ^ a * 5 ^ b := Nat.mul_le_mul_left _ hd2pos
    exact le_trans (le_of_lt (Nat.lt_two_pow a)) h2a
  have hb : b ≤ d := by
    have h5b : 5 ^ b ≤ d := by
      rw [hprod]
      calc 5 ^ b = 1 * 5 ^ b := by ring
        _ ≤ 2 ^ a * 5 ^ b := Nat.mul_le_mul_right _ hd1pos
    have : b < 5 ^ b := Nat.lt_pow_self (by norm_num) b
    omega
  calc d = 2 ^ a * 5 ^ b := hprod
    _ ∣ 2 ^ d * 5 ^ d := mul_dvd_mul (pow_dvd_pow 2 ha) (pow_dvd_pow 5 hb)
    _ = 10 ^ d := by rw [← mul_pow]; norm_num

theorem parseUnsigned_core (n d : ℕ) (hd : 0 < d) (hdvd : d ∣ 10 ^ d) :
    parseUnsigned (natToDigits (n / d) ++ '.' ::
      (if (fracDigitsAux d (n % d) d).isEmpty then ['0'] else fracDigitsAux d (n % d) d)) =
    some ((n : ℚ) / (d : ℚ)) := by
  have hrlt : n % d < d := Nat.mod_lt _ hd
  have hmod : (10 ^ d * (n % d)) % d = 0 := Nat.mod_eq_zero_of_dvd (hdvd.mul_right _)
  obtain ⟨hv, hdig⟩ := fracDigitsAux_spec d (n % d) d hd hrlt hmod
  have hdq : (d : ℚ) ≠ 0 := by exact_mod_cast hd.ne'
  have hfracdig : ∀ c ∈ (if (fracDigitsAux d (n % d) d).isEmpty then ['0']
      else fracDigitsAux d (n % d) d), c.isDigit = true := by
    split
    · intro c hc; rcases List.mem_singleton.mp hc with rfl; decide
    · exact hdig
  have hfracval : (digitsToNat (if (fracDigitsAux d (n % d) d).isEmpty then ['0']
        else fracDigitsAux d (n % d) d) : ℚ) /
      (10 : ℚ) ^ (if (fracDigitsAux d (n % d) d).isEmpty then ['0']
        else fracDigitsAux d (n % d) d).length = ((n % d : ℕ) : ℚ) / (d : ℚ) := by
    by_cases hfe : (fracDigitsAux d (n % d) d).isEmpty
    · have hfrnil : fracDigitsAux d (n % d) d = [] := List.isEmpty_iff.mp hfe
      rw [hfrnil] at hv
      have hz : digitsToNat ([] : List Char) = 0 := rfl
      rw [hz] at hv
      have hr0 : n % d = 0 := by
        have := hv.symm
        simpa using this
      rw [if_pos hfe, hr0]
      have h0 : digitsToNat ['0'] = 0 := by decide
      rw [h0]
      simp
    · rw [if_neg hfe]
      have hvq : (digitsToNat (fracDigitsAux d (n % d) d) : ℚ) * (d : ℚ) =
          ((n % d : ℕ) : ℚ) * (10 : ℚ) ^ (fracDigitsAux d (n % d) d).length := by
        exact_mod_cast congrArg (fun x : ℕ => (x : ℚ)) hv
      have hp10 : (10 : ℚ) ^ (fracDigitsAux d (n % d) d).length ≠ 0 := by positivity
      field_simp
      linear_combination hvq
  rw [parseUnsigned_of_shape _ _ (natToDigits_all_digit _) hfracdig (natToDigits_ne_nil _)]
  rw [digitsToNat_natToDigits, hfracval]
  congr 1
  have hdm : (d : ℚ) * ((n / d : ℕ) : ℚ) + ((n % d : ℕ) : ℚ) = (n : ℚ) := by
    exact_mod_cast Nat.div_add_mod n d
  field_simp
  linear_combination hdm

theorem den_div_nat_dvd (N D : ℕ) : ((N : ℚ) / (D : ℚ)).den ∣ D := by
  have h := Rat.den_dvd (N : ℤ) (D : ℤ)
  rw [Rat.divInt_eq_div] at h
  have h2 : ((N : ℤ) : ℚ) = (N : ℚ) := by push_cast; rfl
  have h3 : ((D : ℤ) : ℚ) = (D : ℚ) := by push_cast; rfl
  rw [h2, h3] at h
  exact_mod_cast h

theorem den_add_div_pow_dvd (a b k : ℕ) :
    ((a : ℚ) + (b : ℚ) / (10 : ℚ) ^ k).den ∣ 10 ^ k := by
  have h10 : ((10 : ℚ)) ^ k ≠ 0 := by positivity
  have h1 : (a : ℚ) + (b : ℚ) / (10 : ℚ) ^ k =
      ((a * 10 ^ k + b : ℕ) : ℚ) / ((10 ^ k : ℕ) : ℚ) := by
    push_cast
    field_simp
  rw [h1]
  exact den_div_nat_dvd _ _

theorem parseUnsignedAux_den (intD rest : List Char) (q : ℚ)
    (h : parseUnsignedAux intD rest = some q) : ∃ k, q.den ∣ 10 ^ k := by
  cases rest with
  | nil =>
    simp only [parseUnsignedAux] at h
    split at h
    · exact absurd h (by simp)
    · obtain rfl := Option.some_injective _ h
      exact ⟨0, by simp⟩
  | cons c fracD =>
    simp only [parseUnsignedAux] at h
    split at h
    · split at h
      · obtain rfl := Option.some_injective _ h
        exact ⟨_, den_add_div_pow_dvd _ _ _⟩
      · exact absurd h (by simp)
    · exact absurd h (by simp)

theorem parseUnsigned_den (cs : List Char) (q : ℚ) (h : parseUnsigned cs = some q) :
    ∃ k, q.den ∣ 10 ^ k := by
  unfold parseUnsigned at h
  exact parseUnsignedAux_den _ _ _ h

theorem parsePyFloat_den (s : String) (q : ℚ) (h : parsePyFloat s = some q) :
    q.den ∣ 10 ^ q.den := by
  have hdpos : 0 < q.den := q.pos
  suffices hk : ∃ k, q.den ∣ 10 ^ k by
    obtain ⟨k, hk⟩ := hk
    exact dvd_ten_pow_self hdpos hk
  unfold parsePyFloat parseFloatChars at h
  split at h
  · exact absurd h (by simp)
  · split at h
    · obtain ⟨q', hq', rfl⟩ := Option.map_eq_some'.mp h
      obtain ⟨k, hk⟩ := parseUnsigned_den _ _ hq'
      exact ⟨k, by rwa [Rat.neg_den]⟩
    · split at h
      · exact parseUnsigned_den _ _ h
      · exact parseUnsigned_den _ _ h

theorem parseFloatChars_minus (rest : List Char) :
    parseFloatChars ('-' :: rest) = (parseUnsigned rest).map (fun q => -q) := by
  simp [parseFloatChars]

theorem parseFloatChars_digit {c : Char} (cs : List Char) (hc : c.isDigit = true) :
    parseFloatChars (c :: cs) = parseUnsigned (c :: cs) := by
  simp only [parseFloatChars]
  rw [if_neg (isDigit_ne_minus hc), if_neg (isDigit_ne_plus hc)]

/-- Round trip: parsing the printed form of a float value whose decimal
expansion terminates recovers the value exactly. -/
theorem parsePyFloat_pyFloatStr (q : ℚ) (h : (q.den : ℕ) ∣ 10 ^ q.den) :
    parsePyFloat (pyFloatStr q) = some q := by
  have hdpos : 0 < q.den := q.pos
  have hcore := parseUnsigned_core q.num.natAbs q.den hdpos h
  by_cases hqneg : q < 0
  · have hstr : parsePyFloat (pyFloatStr q) =
        parseFloatChars ('-' :: (natToDigits (q.num.natAbs / q.den) ++ '.' ::
          (if (fracDigitsAux q.den (q.num.natAbs % q.den) q.den).isEmpty then ['0']
            else fracDigitsAux q.den (q.num.natAbs % q.den) q.den))) := by
      simp only [parsePyFloat, pyFloatStr, if_pos hqneg]
      rfl
    rw [hstr, parseFloatChars_minus, hcore]
    simp only [Option.map_some']
    congr 1
    have hneg : q.num < 0 := by
      by_contra hc
      exact hqneg.not_le (Rat.num_nonneg.mp (not_lt.mp hc))
    have hnum : (q.num.natAbs : ℚ) = -(q.num : ℚ) := by
      rw [Int.cast_natAbs, abs_of_nonpos hneg.le]
      push_cast
      ring
    rw [hnum, neg_div, neg_neg, Rat.num_div_den]
  · have hstr : parsePyFloat (pyFloatStr q) =
        parseFloatChars (natToDigits (q.num.natAbs / q.den) ++ '.' ::
          (if (fracDigitsAux q.den (q.num.natAbs % q.den) q.den).isEmpty then ['0']
            else fracDigitsAux q.den (q.num.natAbs % q.den) q.den)) := by
      simp only [parsePyFloat, pyFloatStr, if_neg hqneg]
      rfl
    rw [hstr]
    cases hl : natToDigits (q.num.natAbs / q.den) with
    | nil => exact absurd hl (natToDigits_ne_nil _)
    | cons c cs =>
      have hc : c.isDigit = true := natToDigits_all_digit _ c (hl ▸ List.mem_cons_self _ _)
      rw [List.cons_append, parseFloatChars_digit _ hc, ← List.cons_append, ← hl, hcore]
      congr 1
      have hnn : 0 ≤ q.num := Rat.num_nonneg.mpr (not_lt.mp hqneg)
      have hnum : (q.num.natAbs : ℚ) = (q.num : ℚ) := by
        rw [Int.cast_natAbs, abs_of_nonneg hnn]
      rw [hnum, Rat.num_div_den]

/-! ### C1: `_update_save_button_state` -/

/-- `s.strip()`: drop leading and trailing whitespace. -/
def pyStrip (s : String) : String :=
  String.mk (((s.data.dropWhile Char.isWhitespace).reverse.dropWhile Char.isWhitespace).reverse)

/-- `_update_save_button_state`: `True` means the Save & Next button is set
to `normal` (enabled), `False` means `disabled`.  The age entry is parsed
with `float` after `strip`; a parse failure leaves `age_val = None`. -/
def update_save_button_state (age_var gender_var : String) : Bool :=
  match parsePyFloat (pyStrip age_var) with
  | none => false
  | some age_val =>
    if age_val = -1 then true
    else if 0 < age_val ∧ age_val < 101 ∧ pyStrip gender_var ≠ "" then true else false

/-- C1: the Save & Next button is enabled iff the age field parses to the
number `-1`, or a gender is chosen and the parsed age satisfies
`0 < age < 101`; every other combination (including empty or unparseable
age) gives a disabled button.  In particular: age `-1` enables regardless
of gender; age `50` with no gender disables; age `50` with gender `male`
enables; age `150` disables; empty age disables. -/
theorem save_button_enabled_iff :
    (∀ age gender : String,
      update_save_button_state age gender = true ↔
        (parsePyFloat (pyStrip age) = some (-1) ∨
          (pyStrip gender ≠ "" ∧
            ∃ v, parsePyFloat (pyStrip age) = some v ∧ 0 < v ∧ v < 101)))
    ∧ (∀ gender, update_save_button_state "-1" gender = true)
    ∧ update_save_button_state "50" "" = false
    ∧ update_save_button_state "50" "male" = true
    ∧ (∀ gender, update_save_button_state "150" gender = false)
    ∧ (∀ gender, update_save_button_state "" gender = false) := by
  refine ⟨?_, ?_, by decide, by decide, ?_, ?_⟩
  · intro age gender
    cases hp : parsePyFloat (pyStrip age) with
    | none => simp [update_save_button_state, hp]
    | some v =>
      simp only [update_save_button_state, hp]
      by_cases hv : v = -1
      · subst hv
        simp
      · rw [if_neg hv]
        by_cases hcond : 0 < v ∧ v < 101 ∧ pyStrip gender ≠ ""
        · rw [if_pos hcond]
          simp only [true_iff]
          exact Or.inr ⟨hcond.2.2, v, rfl, hcond.1, hcond.2.1⟩
        · rw [if_neg hcond]
          simp only [Bool.false_eq_true, false_iff]
          rintro (h | ⟨hg, u, hu, h1, h2⟩)
          · exact hv (Option.some_injective _ h)
          · obtain rfl := Option.some_injective _ hu
            exact hcond ⟨h1, h2, hg⟩
  · intro gender
    have hp : parsePyFloat (pyStrip "-1") = some (-1) := by decide
    simp [update_save_button_state, hp]
  · intro gender
    have hp : parsePyFloat (pyStrip "150") = some 150 := by decide
    simp only [update_save_button_state, hp]
    rw [if_neg (by norm_num), if_neg (by rintro ⟨h1, h2, h3⟩; norm_num at h2)]
  · intro gender
    have hp : parsePyFloat (pyStrip "") = none := by decide
    simp [update_save_button_state, hp]

/-! ### C2: `_get_tracks` — the two-level directory walk -/

/-- A filesystem entry: a plain file, or a directory with named children. -/
inductive FSEntry where
  | file : FSEntry
  | dir : List (String × FSEntry) → FSEntry

/-- Whether an entry is a plain file. -/
def FSEntry.isFile : FSEntry → Bool
  | .file => true
  | .dir _ => false

/-- First-match association lookup (also Python dict lookup, whose keys are
unique). -/
def assocGet {κ β : Type} [DecidableEq κ] : List (κ × β) → κ → Option β
  | [], _ => none
  | (k, v) :: rest, a => if k = a then some v else assocGet rest a

/-- `os.listdir`: the names of a directory's children. -/
def listdir {β : Type} (entries : List (String × β)) : List String :=
  entries.map Prod.fst

/-- `sorted` on a list of strings (Python sorts strings lexicographically by
code point, as does the `String` order). -/
def sortStrings (l : List String) : List String :=
  List.insertionSort (· ≤ ·) l

/-- `f.lower().endswith((".jpg", ".jpeg", ".png"))`. -/
def isImageName (f : String) : Bool :=
  (".jpg".data.isSuffixOf (f.data.map Char.toLower)) ||
  (".jpeg".data.isSuffixOf (f.data.map Char.toLower)) ||
  (".png".data.isSuffixOf (f.data.map Char.toLower))

/-- The image names collected inside one track directory (kept relative to
the track directory; `tool.py` prefixes `os.path.join(track_path, ·)`,
which does not affect which tracks qualify). -/
def trackImagePaths (trackEntries : List (String × FSEntry)) : List String :=
  (sortStrings (listdir trackEntries)).filter isImageName

/-- `os.path.isdir` refinement: the children of an entry when it exists and
is a directory, `none` otherwise. -/
def dirEntries : Option FSEntry → Option (List (String × FSEntry))
  | some (FSEntry.dir es) => some es
  | _ => none

@[simp] theorem dirEntries_none : dirEntries none = none := rfl

@[simp] theorem dirEntries_file : dirEntries (some FSEntry.file) = none := rfl

@[simp] theorem dirEntries_dir (es : List (String × FSEntry)) :
    dirEntries (some (FSEntry.dir es)) = some es := rfl

/-- Inner loop of `_get_tracks`: scan one camera directory, skipping
non-directory children. -/
def tracksOfCam (camEntries : List (String × FSEntry)) (camera_id : String) :
    List (String × String × List String) :=
  (sortStrings (listdir camEntries)).flatMap fun track_id =>
    (dirEntries (assocGet camEntries track_id)).elim [] fun trackEntries =>
      if (trackImagePaths trackEntries).isEmpty then []
      else [(camera_id, track_id, trackImagePaths trackEntries)]

/-- `_get_tracks`: walk camera directories, then track directories, keeping
tracks with at least one image-named child. -/
def getTracks (root : List (String × FSEntry)) : List (String × String × List String) :=
  (sortStrings (listdir root)).flatMap fun camera_id =>
    (dirEntries (assocGet root camera_id)).elim [] fun camEntries =>
      tracksOfCam camEntries camera_id

/-- The claim's qualification condition, read literally: the track directory
holds at least one FILE with an image extension. -/
def trackQualifiesFile (trackEntries : List (String × FSEntry)) : Bool :=
  trackEntries.any fun e => e.2.isFile && isImageName e.1

/-- What the code actually tests: at least one child NAME with an image
extension, regardless of the child's kind. -/
def trackQualifies (root : List (String × FSEntry)) (cam tid : String) : Prop :=
  ∃ ce te, assocGet root cam = some (FSEntry.dir ce) ∧
    assocGet ce tid = some (FSEntry.dir te) ∧
    ∃ name ∈ listdir te, isImageName name = true

/-- Strict lexicographic order on (camera id, track id) keys. -/
def keyLt (a b : String × String) : Prop :=
  a.1 < b.1 ∨ (a.1 = b.1 ∧ a.2 < b.2)

/-- A track directory whose only image-named child is itself a directory. -/
def c2Root : List (String × FSEntry) :=
  [("cam0", FSEntry.dir [("t0", FSEntry.dir [("sub.jpg", FSEntry.dir [])])])]

theorem assocGet_mem {κ β : Type} [DecidableEq κ] {l : List (κ × β)} {a : κ} {b : β}
    (h : assocGet l a = some b) : (a, b) ∈ l := by
  induction l with
  | nil => exact absurd h (by simp [assocGet])
  | cons p rest ih =>
    obtain ⟨k, v⟩ := p
    unfold assocGet at h
    split at h
    · obtain rfl := Option.some_injective _ h
      subst ‹k = a›
      exact List.mem_cons_self _ _
    · exact List.mem_cons_of_mem _ (ih h)

theorem assocGet_mem_names {β : Type} {l : List (String × β)} {a : String} {b : β}
    (h : assocGet l a = some b) : a ∈ listdir l := by
  have := assocGet_mem h
  exact List.mem_map.mpr ⟨(a, b), this, rfl⟩

theorem mem_sortStrings {l : List String} {a : String} :
    a ∈ sortStrings l ↔ a ∈ l :=
  (List.perm_insertionSort _ l).mem_iff

theorem sortStrings_sorted (l : List String) :
    List.Sorted (· ≤ ·) (sortStrings l) :=
  List.sorted_insertionSort _ l

theorem sortStrings_nodup {l : List String} (h : l.Nodup) : (sortStrings l).Nodup :=
  ((List.perm_insertionSort _ l).nodup_iff).mpr h

theorem sortStrings_pairwise_lt {l : List String} (h : l.Nodup) :
    (sortStrings l).Pairwise (· < ·) := by
  have h1 := sortStrings_sorted l
  have h2 := sortStrings_nodup h
  exact (h1.and h2).imp fun {a b} hab => lt_of_le_of_ne hab.1 hab.2

theorem pairwise_flatMap {β γ : Type} {R : γ → γ → Prop} (l : List β) (f : β → List γ)
    (hinner : ∀ b ∈ l, (f b).Pairwise R)
    (hcross : l.Pairwise (fun b1 b2 => ∀ x ∈ f b1, ∀ y ∈ f b2, R x y)) :
    (l.flatMap f).Pairwise R := by
  induction l with
  | nil => simp
  | cons a rest ih =>
    rw [List.flatMap_cons, List.pairwise_append]
    rw [List.pairwise_cons] at hcross
    refine ⟨hinner a (List.mem_cons_self _ _), ?_, ?_⟩
    · exact ih (fun b hb => hinner b (List.mem_cons_of_mem _ hb)) hcross.2
    · intro x hx y hy
      obtain ⟨b, hb, hyb⟩ := List.mem_flatMap.mp hy
      exact hcross.1 b hb x hx y hyb

theorem trackImagePaths_ne_nil_iff (te : List (String × FSEntry)) :
    trackImagePaths te ≠ [] ↔ ∃ name ∈ listdir te, isImageName name = true := by
  constructor
  · intro h
    obtain ⟨name, hname⟩ := List.exists_mem_of_ne_nil _ h
    obtain ⟨hmem, himg⟩ := List.mem_filter.mp hname
    exact ⟨name, mem_sortStrings.mp hmem, himg⟩
  · rintro ⟨name, hname, himg⟩
    exact List.ne_nil_of_mem (List.mem_filter.mpr ⟨mem_sortStrings.mpr hname, himg⟩)

theorem mem_tracksOfCam {ce : List (String × FSEntry)} {cam : String}
    {x : String × String × List String} :
    x ∈ tracksOfCam ce cam ↔
      x.1 = cam ∧ ∃ te, assocGet ce x.2.1 = some (FSEntry.dir te) ∧
        ¬ (trackImagePaths te).isEmpty = true ∧ x.2.2 = trackImagePaths te := by
  unfold tracksOfCam
  rw [List.mem_flatMap]
  constructor
  · rintro ⟨t, ht, hx⟩
    cases hA : assocGet ce t with
    | none => rw [hA] at hx; simp at hx
    | some e =>
      cases e with
      | file => rw [hA] at hx; simp at hx
      | dir te =>
        rw [hA] at hx
        simp only [dirEntries_dir, Option.elim_some] at hx
        by_cases hE : (trackImagePaths te).isEmpty = true
        · rw [if_pos hE] at hx; simp at hx
        · rw [if_neg hE] at hx
          obtain rfl := List.mem_singleton.mp hx
          exact ⟨rfl, te, hA, hE, rfl⟩
  · obtain ⟨c, t, ips⟩ := x
    rintro ⟨rfl, te, hA, hE, rfl⟩
    simp only at hA
    refine ⟨t, mem_sortStrings.mpr (assocGet_mem_names hA), ?_⟩
    rw [hA]
    simp only [dirEntries_dir, Option.elim_some]
    rw [if_neg hE]
    simp

theorem mem_getTracks {root : List (String × FSEntry)} {x : String × String × List String} :
    x ∈ getTracks root ↔
      ∃ ce, assocGet root x.1 = some (FSEntry.dir ce) ∧ x ∈ tracksOfCam ce x.1 := by
  unfold getTracks
  rw [List.mem_flatMap]
  constructor
  · rintro ⟨c, hc, hx⟩
    cases hA : assocGet root c with
    | none => rw [hA] at hx; simp at hx
    | some e =>
      cases e with
      | file => rw [hA] at hx; simp at hx
      | dir ce =>
        rw [hA] at hx
        simp only [dirEntries_dir, Option.elim_some] at hx
        have hx1 : x.1 = c := (mem_tracksOfCam.mp hx).1
        subst hx1
        exact ⟨ce, hA, hx⟩
  · rintro ⟨ce, hA, hx⟩
    refine ⟨x.1, mem_sortStrings.mpr (assocGet_mem_names hA), ?_⟩
    rw [hA]
    simp only [dirEntries_dir, Option.elim_some]
    exact hx

theorem mem_track_block {ce : List (String × FSEntry)} {cam t : String}
    {x : String × String}
    (hx : x ∈ (((dirEntries (assocGet ce t)).elim [] fun te =>
        if (trackImagePaths te).isEmpty then []
        else [(cam, t, trackImagePaths te)]).map (fun e => (e.1, e.2.1)))) :
    x = (cam, t) := by
  cases hA : dirEntries (assocGet ce t) with
  | none => rw [hA] at hx; simp at hx
  | some te =>
    rw [hA] at hx
    simp only [Option.elim_some] at hx
    by_cases hE : (trackImagePaths te).isEmpty = true
    · rw [if_pos hE] at hx; simp at hx
    · rw [if_neg hE] at hx
      simpa using hx

theorem pairwise_map_tracksOfCam (ce : List (String × FSEntry)) (cam : String)
    (hnodup : (listdir ce).Nodup) :
    ((tracksOfCam ce cam).map (fun e => (e.1, e.2.1))).Pairwise keyLt := by
  unfold tracksOfCam
  rw [List.map_flatMap]
  apply pairwise_flatMap
  · intro t ht
    cases hA : dirEntries (assocGet ce t) with
    | none => simp
    | some te =>
      simp only [Option.elim_some]
      by_cases hE : (trackImagePaths te).isEmpty = true
      · rw [if_pos hE]; simp
      · rw [if_neg hE]; simp
  · refine (sortStrings_pairwise_lt hnodup).imp ?_
    intro t1 t2 hlt x hx y hy
    obtain rfl := mem_track_block hx
    obtain rfl := mem_track_block hy
    exact Or.inr ⟨rfl, hlt⟩

theorem mem_cam_block {root : List (String × FSEntry)} {c : String}
    {x : String × String}
    (hx : x ∈ (((dirEntries (assocGet root c)).elim [] fun ce =>
        tracksOfCam ce c).map (fun e => (e.1, e.2.1)))) :
    x.1 = c := by
  cases hA : dirEntries (assocGet root c) with
  | none => rw [hA] at hx; simp at hx
  | some ce =>
    rw [hA] at hx
    simp only [Option.elim_some] at hx
    obtain ⟨e, he, rfl⟩ := List.mem_map.mp hx
    exact (mem_tracksOfCam.mp he).1

/-- C2 counterexample: in `c2Root` the only track directory contains a single
child, a DIRECTORY named `sub.jpg` and no file at all, yet `_get_tracks`
lists the track — so qualification is not "contains at least one file with
an image extension". -/
theorem getTracks_file_only_counterexample :
    (getTracks c2Root).map (fun e => (e.1, e.2.1)) = [("cam0", "t0")] ∧
    assocGet c2Root "cam0" =
      some (FSEntry.dir [("t0", FSEntry.dir [("sub.jpg", FSEntry.dir [])])]) ∧
    trackQualifiesFile [("sub.jpg", FSEntry.dir [])] = false := by
  refine ⟨?_, rfl, by decide⟩
  rfl

/-- C2 (amended): `_get_tracks` walks exactly two directory levels, skipping
non-directory entries; a track is listed iff its directory contains at least
one ENTRY (file or directory) whose name ends case-insensitively in
`.jpg`/`.jpeg`/`.png`; and the resulting list has exactly one entry per
qualifying pair, strictly ordered lexicographically by camera id then track
id (given the filesystem invariant that sibling names are distinct). -/
theorem getTracks_two_level_scan (root : List (String × FSEntry))
    (hroot : (listdir root).Nodup)
    (hcam : ∀ p ∈ root, ∀ ce, p.2 = FSEntry.dir ce → (listdir ce).Nodup) :
    (∀ cam tid, (∃ ips, (cam, tid, ips) ∈ getTracks root) ↔ trackQualifies root cam tid)
    ∧ ((getTracks root).map (fun e => (e.1, e.2.1))).Pairwise keyLt := by
  constructor
  · intro cam tid
    constructor
    · rintro ⟨ips, h⟩
      obtain ⟨ce, hA, hc⟩ := mem_getTracks.mp h
      obtain ⟨-, te, hT, hE, -⟩ := mem_tracksOfCam.mp hc
      refine ⟨ce, te, hA, hT, ?_⟩
      refine (trackImagePaths_ne_nil_iff te).mp ?_
      intro hnil
      exact hE (by simp [hnil])
    · rintro ⟨ce, te, hA, hT, hname⟩
      refine ⟨trackImagePaths te, mem_getTracks.mpr ⟨ce, hA, ?_⟩⟩
      refine mem_tracksOfCam.mpr ⟨rfl, te, hT, ?_, rfl⟩
      intro hE
      exact (trackImagePaths_ne_nil_iff te).mpr hname (List.isEmpty_iff.mp hE)
  · unfold getTracks
    rw [List.map_flatMap]
    apply pairwise_flatMap
    · intro c hc
      cases hA : dirEntries (assocGet root c) with
      | none => simp
      | some ce =>
        simp only [Option.elim_some]
        cases hA0 : assocGet root c with
        | none => rw [hA0] at hA; simp at hA
        | some e =>
          cases e with
          | file => rw [hA0] at hA; simp at hA
          | dir ce0 =>
            rw [hA0] at hA
            simp only [dirEntries_dir, Option.some_injective] at hA
            obtain rfl : ce0 = ce := by simpa using hA
            exact pairwise_map_tracksOfCam _ c
              (hcam _ (assocGet_mem hA0) _ rfl)
    · refine (sortStrings_pairwise_lt hroot).imp ?_
      intro c1 c2 hlt x hx y hy
      have h1 := mem_cam_block hx
      have h2 := mem_cam_block hy
      exact Or.inl (h1 ▸ h2 ▸ hlt)

/-- Witness for C2 (amended), at the concrete tree `c2Root`. -/
theorem getTracks_two_level_scan_witness :
    (∀ cam tid, (∃ ips, (cam, tid, ips) ∈ getTracks c2Root) ↔ trackQualifies c2Root cam tid)
    ∧ ((getTracks c2Root).map (fun e => (e.1, e.2.1))).Pairwise keyLt :=
  getTracks_two_level_scan c2Root (by decide)
    (by
      intro p hp ce hce
      rcases List.mem_singleton.mp hp with rfl
      injection hce with h
      subst h
      decide)

/-! ### Application state and the label-persistence operations -/

/-- One track: (camera_id, track_id, image paths). -/
abbrev Track := String × String × List String

/-- A label-map key: (camera_id, track_id). -/
abbrev TrackKey := String × String

/-- A label-map value: (gender, age string). -/
abbrev LabelVal := String × String

/-- The fixed CSV header row. -/
def csvHeader : List String := ["camera_id", "track_id", "gender", "age"]

/-- Python dict assignment `m[k] = v`: replace the existing entry in place,
otherwise append at the end (insertion order preserved). -/
def dictInsert (m : List (TrackKey × LabelVal)) (k : TrackKey) (v : LabelVal) :
    List (TrackKey × LabelVal) :=
  if (m.any fun e => decide (e.1 = k)) then
    m.map fun e => if e.1 = k then (k, v) else e
  else m ++ [(k, v)]

/-- Python dict deletion `del m[k]`. -/
def dictErase (m : List (TrackKey × LabelVal)) (k : TrackKey) :
    List (TrackKey × LabelVal) :=
  m.filter fun e => decide (e.1 ≠ k)

/-- Full rewrite of the label file from the in-memory map: header first,
then one 4-field row per entry, in map order. -/
def writeRows (m : List (TrackKey × LabelVal)) : List (List String) :=
  csvHeader :: m.map fun e => [e.1.1, e.1.2, e.2.1, e.2.2]

/-- `_load_existing_labels`: `none` models a missing file; otherwise the
file is a list of CSV rows.  An absent or empty header yields an empty map;
rows with fewer than 4 fields are skipped; later rows overwrite earlier
ones via dict assignment. -/
def load_existing_labels (file : Option (List (List String))) :
    List (TrackKey × LabelVal) :=
  match file with
  | none => []
  | some [] => []
  | some (header :: rows) =>
    if header.isEmpty then []
    else rows.foldl (fun m row =>
      match row with
      | cam :: tid :: gender :: age :: _ => dictInsert m (cam, tid) (gender, age)
      | _ => m) []

/-- The mutable application state relevant to the labeling logic.  The
gender/age entry widgets are read at the moment a handler runs and are
passed to the handlers as arguments. -/
structure AppState where
  tracks : List Track
  labeled_data : List (TrackKey × LabelVal)
  current_track_index : Int
  csvFile : List (List String)
  deriving DecidableEq

/-- Python `l[i]`: nonnegative indices, then the negative-index convention;
`none` is an `IndexError`. -/
def pyGet {α : Type} (l : List α) (i : Int) : Option α :=
  if 0 ≤ i ∧ i < (l.length : Int) then l[i.toNat]?
  else if -(l.length : Int) ≤ i ∧ i < 0 then l[((l.length : Int) + i).toNat]?
  else none

/-- Python `del l[i]`. -/
def pyDelIdx {α : Type} (l : List α) (i : Int) : Option (List α) :=
  if 0 ≤ i ∧ i < (l.length : Int) then some (l.eraseIdx i.toNat)
  else if -(l.length : Int) ≤ i ∧ i < 0 then some (l.eraseIdx ((l.length : Int) + i).toNat)
  else none

/-- `_save_label`: the age is written as the literal `-1` when it equals
`-1`, otherwise as `str(age)`; the map is updated and the whole file
rewritten. -/
def save_label (st : AppState) (cam tid gender : String) (age : ℚ) : AppState :=
  let age_str := if age = -1 then "-1" else pyFloatStr age
  let m := dictInsert st.labeled_data (cam, tid) (gender, age_str)
  { st with labeled_data := m, csvFile := writeRows m }

/-- `display_current_track`: out-of-range indices only set a title and
return; in range, the current track is read (always in bounds here).  The
labeling state itself is unchanged. -/
def display_current_track (st : AppState) : Option AppState :=
  if 0 ≤ st.current_track_index ∧ st.current_track_index < (st.tracks.length : Int) then
    (pyGet st.tracks st.current_track_index).map fun _ => st
  else some st

/-- `skip_track`: unconditionally indexes the current track (no bounds
check), saves gender `""` and age `-1`, and advances. -/
def skip_track (st : AppState) : Option AppState :=
  (pyGet st.tracks st.current_track_index).bind fun tr =>
    let st1 := save_label st tr.1 tr.2.1 "" (-1)
    let st2 := { st1 with current_track_index := st1.current_track_index + 1 }
    if st2.current_track_index < (st2.tracks.length : Int) then display_current_track st2
    else some st2

/-- `save_and_next`: bounds-checked; the age entry is parsed with `float`
after `strip`, a parse failure becoming `0.0`; no range or gender check. -/
def save_and_next (st : AppState) (gender age_var : String) : Option AppState :=
  if 0 ≤ st.current_track_index ∧ st.current_track_index < (st.tracks.length : Int) then
    (pyGet st.tracks st.current_track_index).bind fun tr =>
      let age_val : ℚ := (parsePyFloat (pyStrip age_var)).getD 0
      let st1 := save_label st tr.1 tr.2.1 gender age_val
      let st2 := { st1 with current_track_index := st1.current_track_index + 1 }
      if st2.current_track_index < (st2.tracks.length : Int) then display_current_track st2
      else some st2
  else some st

/-- Python `int(x)` on a float value: truncation toward zero. -/
def pyIntOfRat (q : ℚ) : Int := Int.tdiv q.num q.den

/-- `tkinter.IntVar.get()` on the raw spinbox text: Tcl tries the text as
an integer, then as a double truncated toward zero (`int(getdouble(...))`),
and raises `TclError` (`none`) on anything else — `ttk.Spinbox` applies no
validation, so arbitrary text can be typed.  Numeric text is modelled on
the same decimal-literal subset as `float`. -/
def pyIntVarGet (text : String) : Option Int :=
  (parsePyFloat text).map pyIntOfRat

/-- `prev_track`: decrement; when the result is negative an info dialog is
shown and the index reset to 0. -/
def prev_track (st : AppState) : Option AppState :=
  if 0 ≤ st.current_track_index - 1 then
    display_current_track { st with current_track_index := st.current_track_index - 1 }
  else some { st with current_track_index := 0 }

/-- `_goto_track`: first reads the spinbox through `IntVar.get()` — an
uncaught `TclError` on non-numeric text — then checks the 1-based index;
out-of-range values only show a warning dialog. -/
def goto_track (st : AppState) (spin_text : String) : Option AppState :=
  (pyIntVarGet spin_text).bind fun v =>
    if 0 ≤ v - 1 ∧ v - 1 < (st.tracks.length : Int) then
      display_current_track { st with current_track_index := v - 1 }
    else some st

/-- `remove_current_track`.  `deleteOk` is the outcome of
`shutil.rmtree` on the track directory (`false` = the call raised).  The
returned flag records whether the blocking error dialog was shown. -/
def remove_current_track (st : AppState) (deleteOk : Bool) :
    Option (AppState × Bool) :=
  if 0 ≤ st.current_track_index ∧ st.current_track_index < (st.tracks.length : Int) then
    (pyGet st.tracks st.current_track_index).bind fun tr =>
      if deleteOk then
        (pyDelIdx st.tracks st.current_track_index).bind fun tracks1 =>
          let key : TrackKey := (tr.1, tr.2.1)
          let m2 := dictErase st.labeled_data key
          let st1 :=
            if (st.labeled_data.any fun e => decide (e.1 = key)) then
              { st with tracks := tracks1, labeled_data := m2, csvFile := writeRows m2 }
            else { st with tracks := tracks1 }
          let st2 :=
            if (tracks1.length : Int) ≤ st1.current_track_index then
              { st1 with current_track_index := (tracks1.length : Int) - 1 }
            else st1
          (display_current_track st2).map fun s => (s, false)
      else some (st, true)
  else some (st, false)

/-! ### Helper lemmas about the primitives -/

theorem pyGet_in_range {α : Type} (l : List α) (i : Int)
    (h : 0 ≤ i ∧ i < (l.length : Int)) : ∃ a, pyGet l i = some a := by
  unfold pyGet
  rw [if_pos h]
  have hlt : i.toNat < l.length := by omega
  exact ⟨l[i.toNat], List.getElem?_eq_getElem hlt⟩

theorem pyDelIdx_in_range {α : Type} (l : List α) (i : Int)
    (h : 0 ≤ i ∧ i < (l.length : Int)) :
    pyDelIdx l i = some (l.eraseIdx i.toNat) := by
  unfold pyDelIdx
  rw [if_pos h]

theorem display_current_track_eq (st : AppState) :
    display_current_track st = some st := by
  unfold display_current_track
  split
  · obtain ⟨a, ha⟩ := pyGet_in_range st.tracks st.current_track_index ‹_›
    rw [ha]
    rfl
  · rfl

theorem mem_dictInsert {m : List (TrackKey × LabelVal)} {k : TrackKey} {v : LabelVal}
    {x : TrackKey × LabelVal} (hx : x ∈ dictInsert m k v) : x = (k, v) ∨ x ∈ m := by
  unfold dictInsert at hx
  split at hx
  · obtain ⟨e, he, hex⟩ := List.mem_map.mp hx
    by_cases hek : e.1 = k
    · rw [if_pos hek] at hex
      exact Or.inl hex.symm
    · rw [if_neg hek] at hex
      exact Or.inr (hex ▸ he)
  · rcases List.mem_append.mp hx with h | h
    · exact Or.inr h
    · exact Or.inl (List.mem_singleton.mp h)

theorem dictInsert_self_mem (m : List (TrackKey × LabelVal)) (k : TrackKey) (v : LabelVal) :
    (k, v) ∈ dictInsert m k v := by
  unfold dictInsert
  split
  · next hany =>
    obtain ⟨e, he, hek⟩ := List.any_eq_true.mp hany
    refine List.mem_map.mpr ⟨e, he, ?_⟩
    rw [if_pos (of_decide_eq_true hek)]
  · exact List.mem_append.mpr (Or.inr (List.mem_singleton.mpr rfl))

theorem assocGet_cons {κ β : Type} [DecidableEq κ] (k1 : κ) (v1 : β)
    (rest : List (κ × β)) (a : κ) :
    assocGet ((k1, v1) :: rest) a = if k1 = a then some v1 else assocGet rest a := rfl

theorem assocGet_dictInsert_self (m : List (TrackKey × LabelVal)) (k : TrackKey)
    (v : LabelVal) : assocGet (dictInsert m k v) k = some v := by
  unfold dictInsert
  split
  · next hany =>
    induction m with
    | nil => simp at hany
    | cons e rest ih =>
      obtain ⟨k1, v1⟩ := e
      rcases List.any_eq_true.mp hany with ⟨e', he', hek⟩
      by_cases h1 : k1 = k
      · show assocGet ((if (k1, v1).1 = k then (k, v) else (k1, v1)) :: _) k = some v
        rw [if_pos h1, assocGet_cons, if_pos rfl]
      · show assocGet ((if (k1, v1).1 = k then (k, v) else (k1, v1)) :: _) k = some v
        rw [if_neg h1, assocGet_cons, if_neg h1]
        rcases List.mem_cons.mp he' with rfl | hmem
        · exact absurd (of_decide_eq_true hek) h1
        · exact ih (List.any_eq_true.mpr ⟨e', hmem, hek⟩)
  · next hany =>
    induction m with
    | nil =>
      rw [List.nil_append, assocGet_cons, if_pos rfl]
    | cons e rest ih =>
      obtain ⟨k1, v1⟩ := e
      have he1 : k1 ≠ k := by
        intro hek
        exact hany (List.any_eq_true.mpr ⟨(k1, v1), List.mem_cons_self _ _, decide_eq_true hek⟩)
      rw [List.cons_append, assocGet_cons, if_neg he1]
      exact ih fun hany' => by
        obtain ⟨e', he', hek⟩ := List.any_eq_true.mp hany'
        exact hany (List.any_eq_true.mpr ⟨e', List.mem_cons_of_mem _ he', hek⟩)

theorem assocGet_dictErase_self (m : List (TrackKey × LabelVal)) (k : TrackKey) :
    assocGet (dictErase m k) k = none := by
  unfold dictErase
  induction m with
  | nil => rfl
  | cons e rest ih =>
    obtain ⟨k1, v1⟩ := e
    rw [List.filter_cons]
    by_cases h : k1 ≠ k
    · rw [if_pos (decide_eq_true h), assocGet_cons, if_neg h]
      exact ih
    · rw [if_neg (by simpa using h)]
      exact ih

theorem mem_dictErase {m : List (TrackKey × LabelVal)} {k : TrackKey}
    {x : TrackKey × LabelVal} (hx : x ∈ dictErase m k) : x ∈ m ∧ x.1 ≠ k := by
  obtain ⟨h1, h2⟩ := List.mem_filter.mp hx
  exact ⟨h1, of_decide_eq_true h2⟩

theorem assocGet_none_of_not_any (m : List (TrackKey × LabelVal)) (k : TrackKey)
    (h : ¬ (m.any fun e => decide (e.1 = k)) = true) : assocGet m k = none := by
  induction m with
  | nil => rfl
  | cons e rest ih =>
    obtain ⟨k1, v1⟩ := e
    have he1 : k1 ≠ k := by
      intro hek
      exact h (List.any_eq_true.mpr ⟨(k1, v1), List.mem_cons_self _ _, decide_eq_true hek⟩)
    rw [assocGet_cons, if_neg he1]
    exact ih fun hany => by
      obtain ⟨e', he', hek⟩ := List.any_eq_true.mp hany
      exact h (List.any_eq_true.mpr ⟨e', List.mem_cons_of_mem _ he', hek⟩)

/-- Distinctness of the label-map keys (a Python dict invariant). -/
def keysNodup (m : List (TrackKey × LabelVal)) : Prop := (m.map Prod.fst).Nodup

theorem keysNodup_dictInsert {m : List (TrackKey × LabelVal)} (k : TrackKey) (v : LabelVal)
    (h : keysNodup m) : keysNodup (dictInsert m k v) := by
  unfold dictInsert
  split
  · next _ =>
    have hkeys : (m.map fun e => if e.1 = k then (k, v) else e).map Prod.fst = m.map Prod.fst := by
      rw [List.map_map]
      refine List.map_congr_left ?_
      intro e _
      by_cases he : e.1 = k
      · simp [he]
      · simp [he]
    unfold keysNodup
    rw [hkeys]
    exact h
  · next hany =>
    unfold keysNodup
    rw [List.map_append]
    rw [List.nodup_append]
    refine ⟨h, List.nodup_singleton _, ?_⟩
    intro a ha hb
    simp only [List.map_cons, List.map_nil, List.mem_singleton] at hb
    subst hb
    obtain ⟨e, he, hek⟩ := List.mem_map.mp ha
    exact hany (List.any_eq_true.mpr ⟨e, he, decide_eq_true hek⟩)

theorem dictInsert_append_of_fresh (acc : List (TrackKey × LabelVal)) (k : TrackKey)
    (v : LabelVal) (h : ∀ e ∈ acc, e.1 ≠ k) : dictInsert acc k v = acc ++ [(k, v)] := by
  unfold dictInsert
  rw [if_neg]
  intro hany
  obtain ⟨e, he, hek⟩ := List.any_eq_true.mp hany
  exact h e he (of_decide_eq_true hek)

theorem load_foldl_rows (m : List (TrackKey × LabelVal)) :
    ∀ acc : List (TrackKey × LabelVal), keysNodup m → (∀ e ∈ m, ∀ e' ∈ acc, e'.1 ≠ e.1) →
    ((m.map fun e => [e.1.1, e.1.2, e.2.1, e.2.2]).foldl (fun m row =>
      match row with
      | cam :: tid :: gender :: age :: _ => dictInsert m (cam, tid) (gender, age)
      | _ => m) acc) = acc ++ m := by
  induction m with
  | nil => intro acc _ _; simp
  | cons e rest ih =>
    intro acc hnodup hdisj
    obtain ⟨⟨c, t⟩, g, a⟩ := e
    show List.foldl _ (dictInsert acc (c, t) (g, a)) _ = _
    rw [dictInsert_append_of_fresh acc (c, t) (g, a)
      (fun e' he' => hdisj _ (List.mem_cons_self _ _) e' he')]
    have hnodup' : keysNodup rest := (List.nodup_cons.mp hnodup).2
    have hfresh : ∀ x ∈ rest, ∀ e' ∈ acc ++ [((c, t), (g, a))], e'.1 ≠ x.1 := by
      intro x hx e' he'
      rcases List.mem_append.mp he' with h1 | h1
      · exact hdisj x (List.mem_cons_of_mem _ hx) e' h1
      · obtain rfl := List.mem_singleton.mp h1
        intro hct
        have : (c, t) ∈ rest.map Prod.fst := List.mem_map.mpr ⟨x, hx, hct.symm⟩
        exact (List.nodup_cons.mp hnodup).1 this
    rw [ih (acc ++ [((c, t), (g, a))]) hnodup' hfresh]
    simp

theorem load_writeRows (m : List (TrackKey × LabelVal)) (h : keysNodup m) :
    load_existing_labels (some (writeRows m)) = m := by
  unfold writeRows
  simp only [load_existing_labels]
  rw [if_neg (by simp [csvHeader])]
  have := load_foldl_rows m [] h (by simp)
  simpa using this

/-! ### Computation lemmas for the handlers -/

theorem skip_track_eq (st : AppState) (tr : Track)
    (h : pyGet st.tracks st.current_track_index = some tr) :
    skip_track st = some { save_label st tr.1 tr.2.1 "" (-1) with
      current_track_index := st.current_track_index + 1 } := by
  unfold skip_track
  rw [h]
  simp only [Option.some_bind]
  split
  · exact display_current_track_eq _
  · rfl

theorem save_and_next_eq (st : AppState) (gender age_var : String) (tr : Track)
    (hrange : 0 ≤ st.current_track_index ∧ st.current_track_index < (st.tracks.length : Int))
    (h : pyGet st.tracks st.current_track_index = some tr) :
    save_and_next st gender age_var = some
      { save_label st tr.1 tr.2.1 gender ((parsePyFloat (pyStrip age_var)).getD 0) with
        current_track_index := st.current_track_index + 1 } := by
  unfold save_and_next
  rw [if_pos hrange, h]
  simp only [Option.some_bind]
  split
  · exact display_current_track_eq _
  · rfl

/-- The state produced by a successful `remove_current_track`. -/
def removeResult (st : AppState) (tr : Track) : AppState :=
  let tracks1 := st.tracks.eraseIdx st.current_track_index.toNat
  let key : TrackKey := (tr.1, tr.2.1)
  let m2 := dictErase st.labeled_data key
  let st1 :=
    if (st.labeled_data.any fun e => decide (e.1 = key)) then
      { st with tracks := tracks1, labeled_data := m2, csvFile := writeRows m2 }
    else { st with tracks := tracks1 }
  if (tracks1.length : Int) ≤ st1.current_track_index then
    { st1 with current_track_index := (tracks1.length : Int) - 1 }
  else st1

theorem remove_current_track_eq (st : AppState) (tr : Track)
    (hrange : 0 ≤ st.current_track_index ∧ st.current_track_index < (st.tracks.length : Int))
    (h : pyGet st.tracks st.current_track_index = some tr) :
    remove_current_track st true = some (removeResult st tr, false) := by
  unfold remove_current_track
  rw [if_pos hrange, h]
  simp only [Option.some_bind, if_true]
  rw [pyDelIdx_in_range _ _ hrange]
  simp only [Option.some_bind]
  rw [display_current_track_eq]
  rfl

theorem remove_current_track_error (st : AppState) (tr : Track)
    (hrange : 0 ≤ st.current_track_index ∧ st.current_track_index < (st.tracks.length : Int))
    (h : pyGet st.tracks st.current_track_index = some tr) :
    remove_current_track st false = some (st, true) := by
  unfold remove_current_track
  rw [if_pos hrange, h]
  simp

/-! ### C3: the age invariant -/

/-- A stored age string is valid when it parses to `-1` or to a value in
`(0, 100]`. -/
def ageStrOk (a : String) : Bool :=
  match parsePyFloat a with
  | some q => decide (q = -1) || (decide (0 < q) && !decide ((100 : ℚ) < q))
  | none => false

/-- Every entry of the label map carries a valid age string. -/
def labelsOk (m : List (TrackKey × LabelVal)) : Bool :=
  m.all fun e => ageStrOk e.2.2

/-- A small reachable state: one track, no labels yet, fresh output file. -/
def stOne : AppState :=
  { tracks := [("c", "t", ["img.jpg"])], labeled_data := [],
    current_track_index := 0, csvFile := [csvHeader] }

/-- The state reached from `stOne` by `save_and_next` with gender `male`
and age input `500`. -/
def stOneAfter : AppState :=
  { tracks := [("c", "t", ["img.jpg"])],
    labeled_data := [(("c", "t"), ("male", "500.0"))],
    current_track_index := 1,
    csvFile := [csvHeader, ["c", "t", "male", "500.0"]] }

theorem parse_500_frac : parsePyFloat "500.0" = some 500 := by
  have h1 : parsePyFloat "500.0" =
      some ((digitsToNat ['5', '0', '0'] : ℚ) +
        (digitsToNat ['0'] : ℚ) / (10 : ℚ) ^ (1 : ℕ)) := rfl
  have hd1 : digitsToNat ['5', '0', '0'] = 500 := by decide
  have hd2 : digitsToNat ['0'] = 0 := by decide
  rw [h1, hd1, hd2]
  norm_num

theorem ageStrOk_500 : ageStrOk "500.0" = false := by
  unfold ageStrOk
  rw [parse_500_frac]
  decide

/-- C3 counterexample: from a state satisfying the invariant,
`save_and_next` with gender `male` and age input `500` stores the entry
`("male", "500.0")` — age 500 is neither in (0,100] nor -1, so the
mutations do not preserve the invariant regardless of input. -/
theorem save_and_next_breaks_age_invariant :
    labelsOk stOne.labeled_data = true ∧
    save_and_next stOne "male" "500" = some stOneAfter ∧
    labelsOk stOneAfter.labeled_data = false ∧
    assocGet stOneAfter.labeled_data ("c", "t") = some ("male", "500.0") := by
  refine ⟨rfl, ?_, ?_, by decide⟩
  · have htr : pyGet stOne.tracks stOne.current_track_index =
        some ("c", "t", ["img.jpg"]) := by decide
    have h := save_and_next_eq stOne "male" "500" ("c", "t", ["img.jpg"]) (by decide) htr
    have hq : (parsePyFloat (pyStrip "500")).getD 0 = (500 : ℚ) := by decide
    rw [hq] at h
    rw [h]
    decide
  · show (ageStrOk "500.0" && true) = false
    rw [ageStrOk_500]
    rfl

theorem removeResult_labeled_eq (st : AppState) (tr : Track) :
    (removeResult st tr).labeled_data =
      if (st.labeled_data.any fun e => decide (e.1 = (tr.1, tr.2.1))) then
        dictErase st.labeled_data (tr.1, tr.2.1)
      else st.labeled_data := by
  by_cases hc1 : (st.labeled_data.any fun e => decide (e.1 = (tr.1, tr.2.1))) = true
  · simp only [removeResult, if_pos hc1]
    split <;> rfl
  · simp only [removeResult, if_neg hc1]
    split <;> rfl

theorem removeResult_csv_eq (st : AppState) (tr : Track) :
    (removeResult st tr).csvFile =
      if (st.labeled_data.any fun e => decide (e.1 = (tr.1, tr.2.1))) then
        writeRows (dictErase st.labeled_data (tr.1, tr.2.1))
      else st.csvFile := by
  by_cases hc1 : (st.labeled_data.any fun e => decide (e.1 = (tr.1, tr.2.1))) = true
  · simp only [removeResult, if_pos hc1]
    split <;> rfl
  · simp only [removeResult, if_neg hc1]
    split <;> rfl

theorem removeResult_tracks_eq (st : AppState) (tr : Track) :
    (removeResult st tr).tracks = st.tracks.eraseIdx st.current_track_index.toNat := by
  simp only [removeResult]
  split <;> split <;> rfl

theorem labelsOk_mem {m : List (TrackKey × LabelVal)} (h : labelsOk m = true)
    {e : TrackKey × LabelVal} (he : e ∈ m) : ageStrOk e.2.2 = true :=
  List.all_eq_true.mp h e he

/-- C3 (amended): `skip_track` and `remove_current_track` preserve the age
invariant unconditionally; `save_and_next` preserves it provided the
supplied age input parses to `-1` or to a value in `(0,100]` — the save
path itself performs no range or gender check, so the invariant there is
conditional on the input. -/
theorem mutations_preserve_age_invariant :
    (∀ st g a st', labelsOk st.labeled_data = true →
      (∃ q, parsePyFloat (pyStrip a) = some q ∧ (q = -1 ∨ (0 < q ∧ q ≤ 100))) →
      save_and_next st g a = some st' → labelsOk st'.labeled_data = true)
    ∧ (∀ st st', labelsOk st.labeled_data = true →
      skip_track st = some st' → labelsOk st'.labeled_data = true)
    ∧ (∀ st ok r, labelsOk st.labeled_data = true →
      remove_current_track st ok = some r → labelsOk r.1.labeled_data = true) := by
  refine ⟨?_, ?_, ?_⟩
  · intro st g a st' hok ⟨q, hq, hcond⟩ hsave
    by_cases hrange : 0 ≤ st.current_track_index ∧
        st.current_track_index < (st.tracks.length : Int)
    · obtain ⟨tr, htr⟩ := pyGet_in_range st.tracks _ hrange
      rw [save_and_next_eq st g a tr hrange htr] at hsave
      obtain rfl := Option.some_injective _ hsave.symm
      refine List.all_eq_true.mpr ?_
      intro e he
      rcases mem_dictInsert he with rfl | hmem
      · show ageStrOk (if (parsePyFloat (pyStrip a)).getD 0 = -1 then "-1"
          else pyFloatStr ((parsePyFloat (pyStrip a)).getD 0)) = true
        rw [hq]
        show ageStrOk (if q = -1 then "-1" else pyFloatStr q) = true
        by_cases hq1 : q = -1
        · rw [if_pos hq1]
          decide
        · rw [if_neg hq1]
          have hrt : parsePyFloat (pyFloatStr q) = some q :=
            parsePyFloat_pyFloatStr q (parsePyFloat_den _ q hq)
          unfold ageStrOk
          rw [hrt]
          rcases hcond with rfl | ⟨hq2, hq3⟩
          · exact absurd rfl hq1
          · simp [hq2, not_lt.mpr hq3]
      · exact labelsOk_mem hok hmem
    · unfold save_and_next at hsave
      rw [if_neg hrange] at hsave
      obtain rfl := Option.some_injective _ hsave
      exact hok
  · intro st st' hok hskip
    cases htr : pyGet st.tracks st.current_track_index with
    | none =>
      unfold skip_track at hskip
      rw [htr] at hskip
      exact absurd hskip (by simp)
    | some tr =>
      rw [skip_track_eq st tr htr] at hskip
      obtain rfl := Option.some_injective _ hskip.symm
      refine List.all_eq_true.mpr ?_
      intro e he
      rcases mem_dictInsert he with rfl | hmem
      · show ageStrOk (if (-1 : ℚ) = -1 then "-1" else pyFloatStr (-1)) = true
        rw [if_pos rfl]
        decide
      · exact labelsOk_mem hok hmem
  · intro st ok r hok hrem
    by_cases hrange : 0 ≤ st.current_track_index ∧
        st.current_track_index < (st.tracks.length : Int)
    · obtain ⟨tr, htr⟩ := pyGet_in_range st.tracks _ hrange
      cases ok with
      | true =>
        rw [remove_current_track_eq st tr hrange htr] at hrem
        obtain rfl := Option.some_injective _ hrem.symm
        show labelsOk (removeResult st tr).labeled_data = true
        rw [removeResult_labeled_eq]
        split
        · refine List.all_eq_true.mpr ?_
          intro e he
          exact labelsOk_mem hok (mem_dictErase he).1
        · exact hok
      | false =>
        rw [remove_current_track_error st tr hrange htr] at hrem
        obtain rfl := Option.some_injective _ hrem.symm
        exact hok
    · unfold remove_current_track at hrem
      rw [if_neg hrange] at hrem
      obtain rfl := Option.some_injective _ hrem.symm
      exact hok

/-- The state reached from `stOne` by `save_and_next` with gender `male`
and the in-range age input `50`. -/
def stOneAfter50 : AppState :=
  { tracks := [("c", "t", ["img.jpg"])],
    labeled_data := [(("c", "t"), ("male", "50.0"))],
    current_track_index := 1,
    csvFile := [csvHeader, ["c", "t", "male", "50.0"]] }

/-- Witness for C3 (amended): saving age 50 from `stOne` keeps the
invariant. -/
theorem mutations_preserve_age_invariant_witness :
    labelsOk stOneAfter50.labeled_data = true := by
  have htr : pyGet stOne.tracks stOne.current_track_index =
      some ("c", "t", ["img.jpg"]) := by decide
  have h := save_and_next_eq stOne "male" "50" ("c", "t", ["img.jpg"]) (by decide) htr
  have hq : (parsePyFloat (pyStrip "50")).getD 0 = (50 : ℚ) := by decide
  rw [hq] at h
  refine mutations_preserve_age_invariant.1 stOne "male" "50" stOneAfter50 rfl
    ⟨50, by decide, Or.inr ⟨by norm_num, by norm_num⟩⟩ ?_
  rw [h]
  decide

/-! ### C4: skip semantics; C5: round trip; C6/C7: removal -/

theorem save_label_labeled (st : AppState) (cam tid g : String) (age : ℚ) :
    (save_label st cam tid g age).labeled_data =
      dictInsert st.labeled_data (cam, tid) (g, if age = -1 then "-1" else pyFloatStr age) := rfl

theorem save_label_csv (st : AppState) (cam tid g : String) (age : ℚ) :
    (save_label st cam tid g age).csvFile =
      writeRows (save_label st cam tid g age).labeled_data := rfl

/-- C4: skipping the current track records gender `""` and age `-1` for its
key — the handler never reads the gender selection — and the age reaches
both the map and the file as the literal string `"-1"` (not `"-1.0"`). -/
theorem skip_records_skip_sentinel (st : AppState)
    (h0 : 0 ≤ st.current_track_index)
    (h1 : st.current_track_index < (st.tracks.length : Int)) :
    ∃ tr st', pyGet st.tracks st.current_track_index = some tr ∧
      skip_track st = some st' ∧
      assocGet st'.labeled_data (tr.1, tr.2.1) = some ("", "-1") ∧
      [tr.1, tr.2.1, "", "-1"] ∈ st'.csvFile := by
  obtain ⟨tr, htr⟩ := pyGet_in_range st.tracks _ ⟨h0, h1⟩
  refine ⟨tr, _, htr, skip_track_eq st tr htr, ?_, ?_⟩
  · show assocGet (save_label st tr.1 tr.2.1 "" (-1)).labeled_data (tr.1, tr.2.1) = _
    rw [save_label_labeled, if_pos rfl]
    exact assocGet_dictInsert_self _ _ _
  · show [tr.1, tr.2.1, "", "-1"] ∈ (save_label st tr.1 tr.2.1 "" (-1)).csvFile
    rw [save_label_csv, save_label_labeled, if_pos rfl]
    simp only [writeRows]
    refine List.mem_cons_of_mem _ ?_
    exact List.mem_map.mpr ⟨((tr.1, tr.2.1), ("", "-1")), dictInsert_self_mem _ _ _, rfl⟩

/-- Witness for C4 at the one-track state. -/
theorem skip_records_skip_sentinel_witness :
    ∃ tr st', pyGet stOne.tracks stOne.current_track_index = some tr ∧
      skip_track stOne = some st' ∧
      assocGet st'.labeled_data (tr.1, tr.2.1) = some ("", "-1") ∧
      [tr.1, tr.2.1, "", "-1"] ∈ st'.csvFile :=
  skip_records_skip_sentinel stOne (by decide) (by decide)

/-- C5: round trip — after a save, reloading the written file reproduces
the saved map exactly, and in particular the saved (gender, age) pair for
the saved key. -/
theorem save_label_roundtrip (st : AppState) (cam tid gender : String) (age : ℚ)
    (h : keysNodup st.labeled_data) :
    load_existing_labels (some ((save_label st cam tid gender age).csvFile)) =
      (save_label st cam tid gender age).labeled_data ∧
    assocGet (load_existing_labels (some ((save_label st cam tid gender age).csvFile)))
      (cam, tid) = some (gender, if age = -1 then "-1" else pyFloatStr age) := by
  have hnd : keysNodup (save_label st cam tid gender age).labeled_data := by
    rw [save_label_labeled]
    exact keysNodup_dictInsert _ _ h
  have h1 : load_existing_labels (some ((save_label st cam tid gender age).csvFile)) =
      (save_label st cam tid gender age).labeled_data := by
    rw [save_label_csv]
    exact load_writeRows _ hnd
  refine ⟨h1, ?_⟩
  rw [h1, save_label_labeled]
  exact assocGet_dictInsert_self _ _ _

/-- Witness for C5 at the one-track state. -/
theorem save_label_roundtrip_witness :
    load_existing_labels (some ((save_label stOne "c" "t" "female" 30).csvFile)) =
      (save_label stOne "c" "t" "female" 30).labeled_data ∧
    assocGet (load_existing_labels (some ((save_label stOne "c" "t" "female" 30).csvFile)))
      ("c", "t") = some ("female", if (30 : ℚ) = -1 then "-1" else pyFloatStr 30) :=
  save_label_roundtrip stOne "c" "t" "female" 30 (by simp [keysNodup, stOne])

/-- C6: a successful removal deletes the current track from the list (the
length drops by exactly one), drops any label for its key from the map, and
the rewritten file has no data row for that key (given the file mirrors the
map, as every write maintains). -/
theorem remove_track_success (st : AppState)
    (h0 : 0 ≤ st.current_track_index)
    (h1 : st.current_track_index < (st.tracks.length : Int))
    (hfile : st.csvFile = writeRows st.labeled_data) :
    ∃ tr, pyGet st.tracks st.current_track_index = some tr ∧
      remove_current_track st true = some (removeResult st tr, false) ∧
      (removeResult st tr).tracks = st.tracks.eraseIdx st.current_track_index.toNat ∧
      (removeResult st tr).tracks.length + 1 = st.tracks.length ∧
      assocGet (removeResult st tr).labeled_data (tr.1, tr.2.1) = none ∧
      (∀ g a, [tr.1, tr.2.1, g, a] ∉ (removeResult st tr).csvFile.tail) := by
  obtain ⟨tr, htr⟩ := pyGet_in_range st.tracks _ ⟨h0, h1⟩
  refine ⟨tr, htr, remove_current_track_eq st tr ⟨h0, h1⟩ htr,
    removeResult_tracks_eq st tr, ?_, ?_, ?_⟩
  · rw [removeResult_tracks_eq]
    have hlt : st.current_track_index.toNat < st.tracks.length := by omega
    rw [List.length_eraseIdx_of_lt hlt]
    omega
  · rw [removeResult_labeled_eq]
    split
    · exact assocGet_dictErase_self _ _
    · exact assocGet_none_of_not_any _ _ ‹_›
  · intro g a hmem
    rw [removeResult_csv_eq] at hmem
    by_cases hany : (st.labeled_data.any fun e => decide (e.1 = (tr.1, tr.2.1))) = true
    · rw [if_pos hany] at hmem
      simp only [writeRows, List.tail_cons] at hmem
      obtain ⟨e, he, heq⟩ := List.mem_map.mp hmem
      obtain ⟨-, hne⟩ := mem_dictErase he
      simp only [List.cons.injEq, and_true] at heq
      exact hne (Prod.ext heq.1 heq.2.1)
    · rw [if_neg hany, hfile] at hmem
      simp only [writeRows, List.tail_cons] at hmem
      obtain ⟨e, he, heq⟩ := List.mem_map.mp hmem
      simp only [List.cons.injEq, and_true] at heq
      exact hany (List.any_eq_true.mpr ⟨e, he, decide_eq_true (Prod.ext heq.1 heq.2.1)⟩)

/-- Witness for C6 at the one-track state. -/
theorem remove_track_success_witness :
    ∃ tr, pyGet stOne.tracks stOne.current_track_index = some tr ∧
      remove_current_track stOne true = some (removeResult stOne tr, false) ∧
      (removeResult stOne tr).tracks = stOne.tracks.eraseIdx stOne.current_track_index.toNat ∧
      (removeResult stOne tr).tracks.length + 1 = stOne.tracks.length ∧
      assocGet (removeResult stOne tr).labeled_data (tr.1, tr.2.1) = none ∧
      (∀ g a, [tr.1, tr.2.1, g, a] ∉ (removeResult stOne tr).csvFile.tail) :=
  remove_track_success stOne (by decide) (by decide) rfl

/-- C7: when directory deletion fails, the handler shows the blocking error
dialog (the `true` flag) and aborts: the returned state — track list, label
map, index and persisted file — is exactly the input state. -/
theorem remove_track_failure (st : AppState)
    (h0 : 0 ≤ st.current_track_index)
    (h1 : st.current_track_index < (st.tracks.length : Int)) :
    remove_current_track st false = some (st, true) := by
  obtain ⟨tr, htr⟩ := pyGet_in_range st.tracks _ ⟨h0, h1⟩
  exact remove_current_track_error st tr ⟨h0, h1⟩ htr

/-- Witness for C7 at the one-track state. -/
theorem remove_track_failure_witness :
    remove_current_track stOne false = some (stOne, true) :=
  remove_track_failure stOne (by decide) (by decide)

/-! ### C9: totality of the user-triggered handlers -/

/-- Startup state with no tracks at all. -/
def stEmpty : AppState :=
  { tracks := [], labeled_data := [], current_track_index := 0, csvFile := [csvHeader] }

/-- The state after skipping or saving the last (only) track: the index
sits one past the end of the list. -/
def stPastEnd : AppState :=
  { tracks := [("c", "t", ["img.jpg"])], labeled_data := [],
    current_track_index := 1, csvFile := [csvHeader] }

/-- C9 counterexample: two of the handlers can raise.  `skip_track` indexes
`self.tracks[...]` without any bounds check, so with an empty track list,
or with the current index one past the end, it raises `IndexError`; and
`_goto_track` raises `TclError` out of `IntVar.get()` as soon as the
unvalidated spinbox holds non-numeric (or empty) text. -/
theorem skip_track_raises_out_of_range :
    skip_track stEmpty = none ∧ skip_track stPastEnd = none ∧
    goto_track stOne "abc" = none ∧ goto_track stOne "" = none := by
  refine ⟨rfl, rfl, rfl, rfl⟩

/-- C9 (amended): `save_and_next`, `prev_track` and `remove_current_track`
are total in every state (each guards its indexing); `_goto_track` is total
exactly when the spinbox text is numeric — `IntVar.get()` raises `TclError`
otherwise; `skip_track` is total whenever the current index selects a track
(it alone has no bounds guard). -/
theorem handlers_totality :
    (∀ st g a, ∃ st', save_and_next st g a = some st')
    ∧ (∀ st, ∃ st', prev_track st = some st')
    ∧ (∀ st text v, pyIntVarGet text = some v → ∃ st', goto_track st text = some st')
    ∧ (∀ st text, pyIntVarGet text = none → goto_track st text = none)
    ∧ (∀ st ok, ∃ r, remove_current_track st ok = some r)
    ∧ (∀ st, 0 ≤ st.current_track_index →
        st.current_track_index < (st.tracks.length : Int) →
        ∃ st', skip_track st = some st') := by
  refine ⟨?_, ?_, ?_, ?_, ?_, ?_⟩
  · intro st g a
    by_cases hrange : 0 ≤ st.current_track_index ∧
        st.current_track_index < (st.tracks.length : Int)
    · obtain ⟨tr, htr⟩ := pyGet_in_range st.tracks _ hrange
      exact ⟨_, save_and_next_eq st g a tr hrange htr⟩
    · refine ⟨st, ?_⟩
      unfold save_and_next
      rw [if_neg hrange]
  · intro st
    unfold prev_track
    split
    · exact ⟨_, display_current_track_eq _⟩
    · exact ⟨_, rfl⟩
  · intro st text v hv
    unfold goto_track
    rw [hv]
    simp only [Option.some_bind]
    split
    · exact ⟨_, display_current_track_eq _⟩
    · exact ⟨_, rfl⟩
  · intro st text hv
    unfold goto_track
    rw [hv]
    rfl
  · intro st ok
    by_cases hrange : 0 ≤ st.current_track_index ∧
        st.current_track_index < (st.tracks.length : Int)
    · obtain ⟨tr, htr⟩ := pyGet_in_range st.tracks _ hrange
      cases ok with
      | true => exact ⟨_, remove_current_track_eq st tr hrange htr⟩
      | false => exact ⟨_, remove_current_track_error st tr hrange htr⟩
    · refine ⟨(st, false), ?_⟩
      unfold remove_current_track
      rw [if_neg hrange]
  · intro st ha hb
    obtain ⟨tr, htr⟩ := pyGet_in_range st.tracks _ ⟨ha, hb⟩
    exact ⟨_, skip_track_eq st tr htr⟩

/-- Witness for C9 (amended): skipping from the one-track state succeeds. -/
theorem handlers_totality_witness :
    ∃ st', skip_track stOne = some st' :=
  handlers_totality.2.2.2.2.2 stOne (by decide) (by decide)

/-! ### C10: `_flow_images` column count -/

/-- The layout data `_flow_images` computes. -/
structure FlowResult where
  cols : Int
  cell_width : Int
  scaled : List (Int × Int)
  total_height : Int

/-- Scaled size of one image of pixel size `wh` in a cell of width
`cell_width`: `ratio = w/h` (or 1 when `h = 0`), `scaled_h =
int(cell_width / ratio)`.  (A zero-width image would raise
`ZeroDivisionError` in Python; no claim touches that case.) -/
def scaledSize (cell_width : Int) (wh : Int × Int) : Int × Int :=
  if wh.2 = 0 then (cell_width, cell_width)
  else (cell_width, pyIntOfRat ((cell_width : ℚ) * (wh.2 : ℚ) / (wh.1 : ℚ)))

/-- Row-major chunking of the image list into rows of `k` columns. -/
def chunkAux {α : Type} : ℕ → ℕ → List α → List (List α)
  | 0, _, _ => []
  | _, _, [] => []
  | fuel + 1, k, l => l.take k :: chunkAux fuel k (l.drop k)

/-- `_flow_images`: returns `none` when the canvas width is ≤ 1 (the code
returns before laying anything out); otherwise the column count
`max 1 (width // 150)`, the cell width, the scaled image sizes and the
total height (sum over rows of the max scaled height, plus 20). -/
def flow_images (canvas_width : Int) (imgs : List (Int × Int)) : Option FlowResult :=
  if canvas_width ≤ 1 then none
  else
    let cols := max 1 (Int.fdiv canvas_width 150)
    let cell_width := Int.fdiv canvas_width cols
    some
      { cols := cols
        cell_width := cell_width
        scaled := imgs.map (scaledSize cell_width)
        total_height :=
          ((chunkAux imgs.length cols.toNat imgs).map fun batch =>
            (batch.map fun wh => (scaledSize cell_width wh).2).foldr max 0).foldr (· + ·) 0
          + 20 }

/-- C10: whenever `_flow_images` lays out (canvas width > 1; for degenerate
widths ≤ 1 it returns without computing any layout), the column count is
`max 1 (width // 150)` — hence never 0 — and width 620 gives 4 columns,
width 100 gives 1 column. -/
theorem flow_images_cols :
    (∀ w imgs r, flow_images w imgs = some r →
      r.cols = max 1 (Int.fdiv w 150) ∧ 1 ≤ r.cols)
    ∧ (∀ w imgs, flow_images w imgs = none ↔ w ≤ 1)
    ∧ (∃ r, flow_images 620 [] = some r ∧ r.cols = 4)
    ∧ (∃ r, flow_images 100 [] = some r ∧ r.cols = 1) := by
  refine ⟨?_, ?_, ?_, ?_⟩
  · intro w imgs r h
    unfold flow_images at h
    split at h
    · exact absurd h (by simp)
    · obtain rfl := Option.some_injective _ h
      exact ⟨rfl, le_max_left _ _⟩
  · intro w imgs
    unfold flow_images
    split
    · simpa using ‹_›
    · next hw =>
      constructor
      · intro h
        exact absurd h (by simp)
      · intro h
        exact absurd h hw
  · exact ⟨_, rfl, rfl⟩
  · exact ⟨_, rfl, rfl⟩

/-- Witness for C10 at width 620. -/
theorem flow_images_cols_witness :
    ({ cols := 4, cell_width := 155, scaled := [], total_height := 20 } : FlowResult).cols =
      max 1 (Int.fdiv 620 150) ∧
    1 ≤ ({ cols := 4, cell_width := 155, scaled := [], total_height := 20 } : FlowResult).cols :=
  flow_images_cols.1 620 [] _ rfl

/-! ### C8: the bounding box encoded in an image basename -/

/-- `str.split(sep)` accumulator: every separator occurrence splits, and
empty pieces are kept. -/
def splitOnCharAux (sep : Char) : List Char → List Char → List (List Char)
  | [], acc => [acc.reverse]
  | c :: rest, acc =>
    if c = sep then acc.reverse :: splitOnCharAux sep rest []
    else splitOnCharAux sep rest (c :: acc)

/-- `basename.split("_")`. -/
def pySplitUnderscore (s : String) : List String :=
  (splitOnCharAux '_' s.data []).map String.mk

/-- `os.path.splitext(name)[0]` for a bare basename: cut at the last dot,
unless every character before that dot is itself a dot (then no split). -/
def splitextRoot (s : String) : String :=
  let rev := s.data.reverse
  let ext := rev.takeWhile fun c => decide (c ≠ '.')
  if ext.length = rev.length then s
  else
    let root := (rev.drop (ext.length + 1)).reverse
    if root.all fun c => decide (c = '.') then s else String.mk root

/-- The box parse shared by the code and the claim, taking the parts list
reversed: `parts[-1]` (extension stripped), `parts[-2]`, `parts[-3]`,
`parts[-4]` must all parse as floats, giving (left, top, right, bottom). -/
def boxFromRev (rparts : List String) : Option (ℚ × ℚ × ℚ × ℚ) :=
  match rparts with
  | lastP :: p2 :: p3 :: p4 :: _ =>
    match parsePyFloat p4, parsePyFloat p3, parsePyFloat p2,
        parsePyFloat (splitextRoot lastP) with
    | some l, some t, some r, some b => some (l, t, r, b)
    | _, _, _, _ => none
  | _ => none

/-- The crop box `display_current_track` extracts from a basename: the code
requires `len(parts) >= 6` before looking at the last four tokens. -/
def cropBoxOfBasename (basename : String) : Option (ℚ × ℚ × ℚ × ℚ) :=
  let parts := pySplitUnderscore basename
  if parts.length ≥ 6 then boxFromRev parts.reverse else none

/-- The last four underscore-separated tokens in forward order, as the
claim describes them. -/
def lastFourBox (parts : List String) : Option (ℚ × ℚ × ℚ × ℚ) :=
  match parts.drop (parts.length - 4) with
  | [p4, p3, p2, lastP] =>
    match parsePyFloat p4, parsePyFloat p3, parsePyFloat p2,
        parsePyFloat (splitextRoot lastP) with
    | some l, some t, some r, some b => some (l, t, r, b)
    | _, _, _, _ => none
  | _ => none

/-- The claim read literally: crop whenever the last four tokens exist and
parse (any basename with at least four parts). -/
def cropBoxClaim (basename : String) : Option (ℚ × ℚ × ℚ × ℚ) :=
  let parts := pySplitUnderscore basename
  if parts.length ≥ 4 then lastFourBox parts else none

/-- The amended rule: as the code, at least SIX underscore-separated parts. -/
def cropBoxAmended (basename : String) : Option (ℚ × ℚ × ℚ × ℚ) :=
  let parts := pySplitUnderscore basename
  if parts.length ≥ 6 then lastFourBox parts else none

/-- C8 counterexample: in `a_1_2_3_4.jpg` the last four underscore-separated
tokens before the extension all parse as numbers, yet the code displays the
image uncropped, because the filename has only five parts (fewer than six). -/
theorem cropBox_counterexample :
    cropBoxOfBasename "a_1_2_3_4.jpg" = none ∧
    cropBoxClaim "a_1_2_3_4.jpg" = some (1, 2, 3, 4) := by
  constructor <;> decide

theorem boxFromRev_eq_lastFour (parts : List String) (h : 4 ≤ parts.length) :
    boxFromRev parts.reverse = lastFourBox parts := by
  have hlen4 : 4 ≤ parts.reverse.length := by rw [List.length_reverse]; exact h
  obtain ⟨a, R1, hR1⟩ : ∃ x xs, parts.reverse = x :: xs := by
    cases hc : parts.reverse with
    | nil => rw [hc] at hlen4; simp at hlen4
    | cons x xs => exact ⟨x, xs, rfl⟩
  rw [hR1] at hlen4
  obtain ⟨b, R2, hR2⟩ : ∃ x xs, R1 = x :: xs := by
    cases hc : R1 with
    | nil => rw [hc] at hlen4; simp at hlen4
    | cons x xs => exact ⟨x, xs, rfl⟩
  rw [hR2] at hlen4
  obtain ⟨c, R3, hR3⟩ : ∃ x xs, R2 = x :: xs := by
    cases hc : R2 with
    | nil => rw [hc] at hlen4; simp at hlen4
    | cons x xs => exact ⟨x, xs, rfl⟩
  rw [hR3] at hlen4
  obtain ⟨d, rest, hR4⟩ : ∃ x xs, R3 = x :: xs := by
    cases hc : R3 with
    | nil => rw [hc] at hlen4; simp at hlen4
    | cons x xs => exact ⟨x, xs, rfl⟩
  have hR : parts.reverse = a :: b :: c :: d :: rest := by
    rw [hR1, hR2, hR3, hR4]
  have hparts : parts = rest.reverse ++ [d, c, b, a] := by
    have h0 := congrArg List.reverse hR
    rw [List.reverse_reverse] at h0
    rw [h0]
    simp
  have hplen : parts.length = rest.length + 4 := by
    rw [hparts]
    simp
  have hdrop : parts.drop (parts.length - 4) = [d, c, b, a] := by
    rw [hplen]
    have h5 : rest.length + 4 - 4 = rest.reverse.length := by simp
    rw [h5]
    conv =>
      lhs
      rw [hparts]
    exact List.drop_left _ _
  rw [hR]
  unfold boxFromRev lastFourBox
  rw [hdrop]

/-- C8 (amended): an image is cropped iff its basename has at least six
underscore-separated parts and the last four tokens before the extension
all parse as numbers, giving the box (left, top, right, bottom); in every
other case (including four or five parts with numeric tokens) it is
displayed uncropped. -/
theorem cropBox_spec :
    ∀ basename, cropBoxOfBasename basename = cropBoxAmended basename := by
  intro s
  unfold cropBoxOfBasename cropBoxAmended
  by_cases h : (pySplitUnderscore s).length ≥ 6
  · rw [if_pos h, if_pos h]
    exact boxFromRev_eq_lastFour _ (by omega)
  · rw [if_neg h, if_neg h]

end TrackTool
